import Mathlib

/-!
# Verification of the StackMind streaming-chat client

Shallow embedding of the streaming-chat transport decoder
(`src/frontend/src/services/api.js`, `chatStream`) and of the
client-side stream/session state handling
(`src/frontend/src/components/ChatBot.jsx`, `handleSend` /
`processQueue`), together with proofs and refutations of the
behavioural properties stated in the specification.

Conventions of the embedding:
* JavaScript strings are modelled as `List Char`; `TextDecoder`'s
  byte-level UTF-8 reassembly is abstracted away (chunks are
  character sequences), which is exactly the granularity at which
  `chatStream` operates after `decoder.decode`.
* `JSON.parse` is a browser built-in, not repository code; the decoder
  is therefore parameterised by an arbitrary parse function
  `p : List Char → Option M` that returns `none` exactly when
  `JSON.parse` would throw.
* JavaScript truthiness of `string.trim()` is `∃` a non-whitespace
  character; truthiness of a nullable numeric id is `≠ null ∧ ≠ 0`.
-/

set_option autoImplicit false

universe u

/-- A decoded unit of the streaming protocol: either free text
(delivered to `onChunk`) or a parsed control payload (delivered to
`onMeta`).  `M` is the type of parsed meta payloads. -/
inductive Frame (M : Type u) where
  | text (t : List Char) : Frame M
  | meta (m : M) : Frame M
  deriving DecidableEq

/-- The literal control marker `'__META__'` of `api.js`. -/
def mkMarker : List Char := "__META__".toList

/-- Index of the first `'\n'` in the buffer (JS `buffer.indexOf('\n')`,
with `none` for `-1`). -/
def findNl : List Char → Option Nat
  | [] => none
  | c :: rest => if c = '\n' then some 0 else (findNl rest).map (· + 1)

/-- Index of the first occurrence of `'__META__'` in the buffer
(JS `buffer.indexOf('__META__')`, with `none` for `-1`). -/
def findMk : List Char → Option Nat
  | [] => none
  | c :: rest =>
    if List.take 8 (c :: rest) = mkMarker then some 0
    else (findMk rest).map (· + 1)

/-- Whitespace as removed by JS `String.prototype.trim` (restricted to
the ASCII whitespace characters that occur in this protocol). -/
def isWs (c : Char) : Bool :=
  c = ' ' || c = '\n' || c = '\t' || c = '\r'

/-- `if (text.trim()) onChunk(text)` of `api.js`: the (untrimmed) text
is emitted only when it contains a non-whitespace character. -/
def emitText {M : Type u} (t : List Char) : List (Frame M) :=
  if t.any (fun c => !isWs c) then [Frame.text t] else []

/-- One run of the `while (buffer.length)` loop of `chatStream`
(`api.js` lines 93–130), fuel-indexed so that it is structurally
recursive and kernel-computable.  Returns the frames emitted by this
call, the raw payloads whose parse failed (the `console.error` log),
and the residual buffer.  The fuel is inessential: every iteration
strictly shrinks the buffer, so `length + 1` fuel always suffices
(`processBufF_irrel`). -/
def processBufF {M : Type u} (p : List Char → Option M) :
    Nat → List Char → List (Frame M) × List (List Char) × List Char
  | 0, buf => ([], [], buf)
  | _ + 1, [] => ([], [], [])
  | fuel + 1, buf =>
    if List.take 8 buf = mkMarker then
      -- ---- META FRAME ----
      match findNl buf with
      | none => ([], [], buf)            -- wait for full frame
      | some metaEnd =>
        let metaRaw := (List.take metaEnd buf).drop 8
        let rest := List.drop (metaEnd + 1) buf
        let out := processBufF p fuel rest
        match p metaRaw with
        | some m => (Frame.meta m :: out.1, out.2.1, out.2.2)
        | none => (out.1, metaRaw :: out.2.1, out.2.2)
    else
      -- ---- TEXT FRAME ----
      match findMk buf with
      | none => (emitText buf, [], [])
      | some k =>
        let out := processBufF p fuel (List.drop k buf)
        (emitText (List.take k buf) ++ out.1, out.2.1, out.2.2)

/-- The buffer-processing loop of `chatStream` at its natural fuel. -/
def processBuf {M : Type u} (p : List Char → Option M) (buf : List Char) :
    List (Frame M) × List (List Char) × List Char :=
  processBufF p (buf.length + 1) buf

/-- The chunk-reading loop of `chatStream` (`api.js` lines 84–131):
each arriving chunk is appended to the residual buffer and the buffer
loop is run; the final residual is simply dropped when the reader
reports `done`.  Returns (frames, parse-failure log, final residual). -/
def runDecoder {M : Type u} (p : List Char → Option M) :
    List Char → List (List Char) → List (Frame M) × List (List Char) × List Char
  | r, [] => ([], [], r)
  | r, c :: cs =>
    let out := processBuf p (r ++ c)
    let rest := runDecoder p out.2.2 cs
    (out.1 ++ rest.1, out.2.1 ++ rest.2.1, rest.2.2)

/-- A parse function that always fails (used to instantiate decoder
theorems whose inputs contain no syntactically valid payload). -/
def pNone : List Char → Option Unit := fun _ => none

/-- A parse function that returns the raw payload (used to instantiate
decoder theorems that do not depend on payload syntax). -/
def pRaw : List Char → Option (List Char) := fun s => some s

/-- Concatenation of all text frames of a decoder output, i.e. the
total text handed to `onChunk`. -/
def textOf {M : Type u} (fs : List (Frame M)) : List Char :=
  (fs.filterMap (fun f => match f with
    | Frame.text t => some t
    | Frame.meta _ => none)).flatten

/-- The meta payloads of a decoder output in order, i.e. the arguments
handed to `onMeta`. -/
def metasOf {M : Type u} (fs : List (Frame M)) : List M :=
  fs.filterMap (fun f => match f with
    | Frame.text _ => none
    | Frame.meta m => some m)

/-! ## Sentence-paced delivery buffer (`ChatBot.jsx`, `processQueue`)

`processQueue` shifts chunks from `chunkQueueRef` into
`sentenceBufferRef` and repeatedly applies the JavaScript regex
`/([^.!?]+[.!?]+)/` to the buffer, releasing `match[1]` and then
removing `sentence.length` characters *from the front* of the buffer
(`sentenceBufferRef.current.slice(sentence.length)`). -/

/-- Sentence-terminator characters of the pacing regex. -/
def isTerm (c : Char) : Bool := c = '.' || c = '!' || c = '?'

/-- Leftmost match of `/([^.!?]+[.!?]+)/` in the buffer: returns the
start index of the match and the matched characters (one or more
non-terminators followed by the maximal run of terminators).  Matches
JS regex leftmost semantics: the first position holding a
non-terminator that is followed by a later terminator. -/
def findSentence : List Char → Option (Nat × List Char)
  | [] => none
  | c :: rest =>
    if isTerm c then (findSentence rest).map (fun q => (q.1 + 1, q.2))
    else
      let ns := List.takeWhile (fun x => !isTerm x) (c :: rest)
      let ts := List.takeWhile isTerm (List.drop ns.length (c :: rest))
      if ts.isEmpty then none else some (0, ns ++ ts)

/-- The inner `while ((match = ...))` loop of `processQueue`
(`ChatBot.jsx` lines 422–435), fuel-indexed: releases each matched
sentence and drops `sentence.length` characters from the front of the
buffer.  Returns (released sentences in order, final buffer). -/
def drainBufF : Nat → List Char → List (List Char) × List Char
  | 0, buf => ([], buf)
  | fuel + 1, buf =>
    match findSentence buf with
    | none => ([], buf)
    | some q =>
      let out := drainBufF fuel (List.drop q.2.length buf)
      (q.2 :: out.1, out.2)

/-- The sentence-extraction loop at its natural fuel (each iteration
removes at least one character). -/
def drainBuf (buf : List Char) : List (List Char) × List Char :=
  drainBufF (buf.length + 1) buf

/-- The outer `while (chunkQueueRef.current.length > 0)` loop of
`processQueue`: shift each queued chunk into the sentence buffer and
drain it.  Returns (all released sentences, final sentence buffer). -/
def runPacer : List Char → List (List Char) → List (List Char) × List Char
  | sbuf, [] => ([], sbuf)
  | sbuf, c :: cs =>
    let out := drainBuf (sbuf ++ c)
    let rest := runPacer out.2 cs
    (out.1 ++ rest.1, rest.2)

/-- Final assistant text produced by one exchange: concatenation of the
paced releases followed by the `finally`-block flush of the remaining
sentence buffer (`ChatBot.jsx` lines 557–566). -/
def pacerText (chunks : List (List Char)) : List Char :=
  let out := runPacer [] chunks
  out.1.flatten ++ out.2

/-! ## ChatBot component state (`ChatBot.jsx`)

The repository contains two iterations of the component.  In the first
(`ChatBot.jsx` lines 8–285) stream text is applied to the message
whose `id` equals the captured `streamingId`; in the second
(lines 308–617) `processQueue` applies released sentences to the
message at a captured *index*.  Both are embedded. -/

/-- Message role. -/
inductive Role where
  | user : Role
  | assistant : Role
  deriving DecidableEq

/-- A transcript entry of the first iteration: `{id, role, message}`. -/
structure MsgV1 where
  id : Nat
  role : Role
  message : List Char
  deriving DecidableEq

/-- The `onChunk` transcript mutation of the first iteration
(`ChatBot.jsx` lines 162–170): append the chunk to the message whose
`id` equals the exchange's captured `streamingId`. -/
def applyChunkV1 (streamingId : Nat) (chunk : List Char) (msgs : List MsgV1) :
    List MsgV1 :=
  msgs.map (fun msg =>
    if msg.id = streamingId then { msg with message := msg.message ++ chunk }
    else msg)

/-- Parsed meta payload as used by `ChatBot.jsx`: `meta?.conversation_id`,
where `none` models an absent or `null` field. -/
structure MetaMsg where
  conversation_id : Option Int
  deriving DecidableEq

/-- JS truthiness of a nullable numeric id (`null` and `0` are falsy). -/
def jsTruthyId : Option Int → Bool
  | none => false
  | some n => n != 0

/-- Conversation-binding state of the first iteration: the
`conversationIdRef` and the calls made to `onConversationCreated`. -/
structure ConvState where
  conv : Option Int
  notes : List Int
  deriving DecidableEq

/-- The `onMeta` callback of the first iteration (`ChatBot.jsx` lines
171–177): `if (!conversationIdRef.current && meta?.conversation_id)`
bind the ref and notify the external collaborator. -/
def onMetaV1 (m : MetaMsg) (s : ConvState) : ConvState :=
  if !jsTruthyId s.conv && jsTruthyId m.conversation_id then
    match m.conversation_id with
    | some n => { conv := some n, notes := s.notes ++ [n] }
    | none => s
  else s

/-- Run the decoder's callbacks of the first iteration over an ordered
frame list: text frames do not touch the conversation state, meta
frames pass through `onMetaV1`. -/
def runConv (s : ConvState) : List (Frame MetaMsg) → ConvState
  | [] => s
  | Frame.text _ :: fs => runConv s fs
  | Frame.meta m :: fs => runConv (onMetaV1 m s) fs

/-- The conversation ids carried by the meta frames of a stream, in
order. -/
def metaCids (fs : List (Frame MetaMsg)) : List Int :=
  fs.filterMap (fun f => match f with
    | Frame.text _ => none
    | Frame.meta m => m.conversation_id)

/-- JS `String.prototype.trim` (over the modelled whitespace set). -/
def jsTrim (s : List Char) : List Char :=
  ((s.dropWhile isWs).reverse.dropWhile isWs).reverse

/-- Component state of the first iteration of `ChatBot.jsx` that
`handleSend` reads and writes. -/
structure V1State where
  messages : List MsgV1
  input : List Char
  loading : Bool
  hideWelcome : Bool
  conv : ConvState
  streamingId : Option Nat
  deriving DecidableEq

/-- Outcome of the `chatStream` call as observed by `handleSend`:
either the transport fails before any byte (`!response.ok ||
!response.body`, `api.js` lines 75–77, which throws), or it delivers an
ordered list of decoded frames and resolves. -/
inductive Transport where
  | fail : Transport
  | ok (frames : List (Frame MetaMsg)) : Transport

/-- Deliver a stream's frames through the first iteration's callbacks:
text frames append to the `streamingId` message, meta frames update the
conversation state. -/
def v1Stream (sid : Nat) (msgs : List MsgV1) (cs : ConvState) :
    List (Frame MetaMsg) → List MsgV1 × ConvState
  | [] => (msgs, cs)
  | Frame.text t :: fs => v1Stream sid (applyChunkV1 sid t msgs) cs fs
  | Frame.meta m :: fs => v1Stream sid msgs (onMetaV1 m cs) fs

/-- `handleSend` of the first iteration (`ChatBot.jsx` lines 138–183):
guard on empty input or `loading`; append the user echo and the empty
assistant placeholder; run `chatStream`; in `finally` clear
`streamingIdRef` and `loading`.  There is no `catch`: a transport
failure propagates to the caller after the `finally` block.  `uid` and
`sid` stand for the two `crypto.randomUUID()` results.  Returns the new
state, whether `chatStream` threw, and how many times the transport was
invoked. -/
def v1HandleSend (uid sid : Nat) (t : Transport) (s : V1State) :
    V1State × Bool × Nat :=
  if !(s.input.any (fun c => !isWs c)) || s.loading then (s, false, 0)
  else
    let userText := jsTrim s.input
    let msgs1 := s.messages ++ [⟨uid, Role.user, userText⟩, ⟨sid, Role.assistant, []⟩]
    match t with
    | Transport.fail =>
      ({ messages := msgs1, input := [], loading := false, hideWelcome := true,
         conv := s.conv, streamingId := none }, true, 1)
    | Transport.ok frames =>
      let out := v1Stream sid msgs1 s.conv frames
      ({ messages := out.1, input := [], loading := false, hideWelcome := true,
         conv := out.2, streamingId := none }, false, 1)

/-! ### Second iteration: index-addressed sentence release -/

/-- A transcript entry of the second iteration. -/
structure MsgV2 where
  role : Role
  message : List Char
  deriving DecidableEq

/-- The `setMessages` update of `processQueue` (`ChatBot.jsx` lines
427–432): `if (!updated[assistantIndex]) return prev`, otherwise append
the released sentence to the message at the captured index. -/
def applySentenceV2 (idx : Nat) (sent : List Char) (msgs : List MsgV2) :
    List MsgV2 :=
  match msgs.get? idx with
  | some m => msgs.set idx { m with message := m.message ++ sent }
  | none => msgs

/-- Component state of the second iteration relevant to streaming. -/
structure V2State where
  messages : List MsgV2
  queue : List (List Char)
  sbuf : List Char
  loading : Bool
  deriving DecidableEq

/-- `processQueue` of the second iteration: drain the chunk queue
through the sentence buffer and apply every released sentence at the
captured `assistantIndex`. -/
def v2Drain (idx : Nat) (s : V2State) : V2State :=
  let out := runPacer s.sbuf s.queue
  { s with
    queue := []
    sbuf := out.2
    messages := out.1.foldl (fun ms sent => applySentenceV2 idx sent ms) s.messages }

/-- The second iteration's `onChunk` (`ChatBot.jsx` lines 544–555,
text-chunk path): push the chunk, then run `processQueue` with the
index captured when the exchange started. -/
def v2OnChunk (idx : Nat) (chunk : List Char) (s : V2State) : V2State :=
  v2Drain idx { s with queue := s.queue ++ [chunk] }

/-- The synchronous prefix of the second iteration's `handleSend`:
append the user message and the assistant placeholder and capture
`assistantIndex = prev.length`. -/
def v2Send (text : List Char) (s : V2State) : V2State × Nat :=
  ({ s with
      loading := true
      messages := s.messages ++ [⟨Role.user, text⟩, ⟨Role.assistant, []⟩] },
   s.messages.length + 1)

/-- A user conversation switch in the second iteration: the
`activeConversationId` effect (`ChatBot.jsx` lines 344–361) clears the
chunk queue, the sentence buffer and the message list, and the history
effect (lines 382–397) then installs the fetched history.  Nothing
cancels the in-flight `chatStream`. -/
def v2Switch (hist : List MsgV2) (s : V2State) : V2State :=
  { messages := hist, queue := [], sbuf := [], loading := s.loading }

/-! ## Specification devices (decidable predicates used by amended claims) -/

/-- Classifier of a single decode step relative to the rest of the
stream, fuel-indexed (specification device, not part of the source):
`stepOkF fuel buf e` is `true` when running the buffer-processing loop
on `buf` either consumes it exactly at frame ends, holds an
unterminated meta frame, or ends in the trailing-text branch with the
remaining stream `e` empty or starting with a full `'__META__'` marker
exactly at the boundary (`findMk (t ++ e) = some t.length`, which also
rules out a marker occurrence straddling the boundary).  Chunk
boundaries with this property are the ones the incremental decoder
handles transparently. -/
def stepOkF : Nat → List Char → List Char → Bool
  | 0, _, _ => true
  | _ + 1, [], _ => true
  | fuel + 1, buf, e =>
    if List.take 8 buf = mkMarker then
      match findNl buf with
      | none => true
      | some i => stepOkF fuel (List.drop (i + 1) buf) e
    else
      match findMk buf with
      | none => e.isEmpty || decide (findMk (buf ++ e) = some buf.length)
      | some k => stepOkF fuel (List.drop k buf) e

/-- `stepOkF` at its natural fuel. -/
def stepOk (buf e : List Char) : Bool :=
  stepOkF (buf.length + 1) buf e

/-- The decoder residual does not depend on the parse function. -/
def resid (b : List Char) : List Char := (processBuf pRaw b).2.2

/-- The class of chunkings the incremental decoder is transparent for
(specification device): every chunk boundary must land at a frame
boundary — including a text-segment end immediately followed by a full
marker, with no marker occurrence straddling the boundary — or inside
a recognised meta frame (`stepOk` of the step's buffer against the
concatenation of all remaining chunks). -/
def alignedRun : List Char → List (List Char) → Bool
  | _, [] => true
  | r, c :: cs => stepOk (r ++ c) cs.flatten && alignedRun (resid (r ++ c)) cs

/-- Whether every sentence extraction performed while draining this
buffer matches at position 0 (specification device): exactly the runs
on which the front-slice `sentenceBufferRef.current.slice(sentence.length)`
removes the matched sentence itself. -/
def drainAnchoredF : Nat → List Char → Bool
  | 0, _ => true
  | fuel + 1, buf =>
    match findSentence buf with
    | none => true
    | some q => (q.1 == 0) && drainAnchoredF fuel (List.drop q.2.length buf)

/-- `drainAnchoredF` at its natural fuel. -/
def drainAnchored (buf : List Char) : Bool :=
  drainAnchoredF (buf.length + 1) buf

/-- Chunk sequences on which every sentence extraction is anchored at
the front of the pending buffer (specification device). -/
def pacerAnchored : List Char → List (List Char) → Bool
  | _, [] => true
  | sbuf, c :: cs =>
    drainAnchored (sbuf ++ c) && pacerAnchored (drainBuf (sbuf ++ c)).2 cs

/-! ## Decoder lemmas -/

theorem mkMarker_length : mkMarker.length = 8 := by decide

theorem take8_marker_length {l : List Char} (h : List.take 8 l = mkMarker) :
    8 ≤ l.length := by
  have hl := congrArg List.length h
  rw [List.length_take, mkMarker_length] at hl
  omega

theorem findNl_lt {l : List Char} {i : Nat} (h : findNl l = some i) :
    i < l.length := by
  induction l generalizing i with
  | nil => simp [findNl] at h
  | cons c rest ih =>
    by_cases hc : c = '\n'
    · simp [findNl, hc] at h
      simp [List.length_cons]
      omega
    · simp [findNl, hc] at h
      obtain ⟨j, hj, rfl⟩ := h
      have := ih hj
      simp [List.length_cons]
      omega

theorem findNl_append_some {a : List Char} {i : Nat} (h : findNl a = some i)
    (b : List Char) : findNl (a ++ b) = some i := by
  induction a generalizing i with
  | nil => simp [findNl] at h
  | cons c rest ih =>
    by_cases hc : c = '\n'
    · simp [findNl, hc] at h ⊢
      omega
    · simp [findNl, hc] at h ⊢
      obtain ⟨j, hj, rfl⟩ := h
      exact ⟨j, ih hj, rfl⟩

theorem findNl_append_none {a : List Char} (h : findNl a = none)
    (b : List Char) : findNl (a ++ b) = (findNl b).map (· + a.length) := by
  induction a with
  | nil => simp
  | cons c rest ih =>
    by_cases hc : c = '\n'
    · simp [findNl, hc] at h
    · simp [findNl, hc] at h ⊢
      rw [ih h]
      cases findNl b
      · simp
      · simp
        omega

theorem findMk_cons (c : Char) (rest : List Char) :
    findMk (c :: rest) =
      if List.take 8 (c :: rest) = mkMarker then some 0
      else (findMk rest).map (· + 1) := rfl

theorem findMk_bound {l : List Char} {k : Nat} (h : findMk l = some k) :
    k + 8 ≤ l.length ∧ List.take 8 (List.drop k l) = mkMarker := by
  induction l generalizing k with
  | nil => simp [findMk] at h
  | cons c rest ih =>
    rw [findMk_cons] at h
    by_cases ht : List.take 8 (c :: rest) = mkMarker
    · rw [if_pos ht] at h
      obtain rfl : k = 0 := by
        cases h
        rfl
      exact ⟨take8_marker_length ht, ht⟩
    · rw [if_neg ht] at h
      obtain ⟨j, hj, rfl⟩ := Option.map_eq_some'.mp h
      obtain ⟨hb, hm⟩ := ih hj
      constructor
      · simp only [List.length_cons]
        omega
      · simpa using hm

theorem findMk_pos {l : List Char} {k : Nat}
    (hm : List.take 8 l ≠ mkMarker) (h : findMk l = some k) : 1 ≤ k := by
  cases l with
  | nil => simp [findMk] at h
  | cons c rest =>
    rw [findMk_cons, if_neg hm] at h
    obtain ⟨j, _, rfl⟩ := Option.map_eq_some'.mp h
    omega

theorem findMk_append_some {a : List Char} {k : Nat} (h : findMk a = some k)
    (b : List Char) : findMk (a ++ b) = some k := by
  induction a generalizing k with
  | nil => simp [findMk] at h
  | cons c rest ih =>
    rw [findMk_cons] at h
    rw [List.cons_append, findMk_cons]
    by_cases ht : List.take 8 (c :: rest) = mkMarker
    · rw [if_pos ht] at h
      have h8 : 8 ≤ (c :: rest).length := take8_marker_length ht
      have hx : List.take 8 ((c :: rest) ++ b) = mkMarker := by
        rw [List.take_append_of_le_length h8]
        exact ht
      rw [List.cons_append] at hx
      rw [if_pos hx]
      exact h
    · rw [if_neg ht] at h
      obtain ⟨j, hj, rfl⟩ := Option.map_eq_some'.mp h
      have hb := (findMk_bound hj).1
      have h8 : 8 ≤ (c :: rest).length := by
        simp only [List.length_cons]
        omega
      have hne : List.take 8 ((c :: rest) ++ b) ≠ mkMarker := by
        rw [List.take_append_of_le_length h8]
        exact ht
      rw [List.cons_append] at hne
      rw [if_neg hne, ih hj]
      rfl

theorem processBufF_succ_cons {M : Type u} (p : List Char → Option M)
    (fuel : Nat) (c : Char) (rest : List Char) :
    processBufF p (fuel + 1) (c :: rest) =
      if List.take 8 (c :: rest) = mkMarker then
        match findNl (c :: rest) with
        | none => ([], [], c :: rest)
        | some metaEnd =>
          let metaRaw := (List.take metaEnd (c :: rest)).drop 8
          let out := processBufF p fuel (List.drop (metaEnd + 1) (c :: rest))
          match p metaRaw with
          | some m => (Frame.meta m :: out.1, out.2.1, out.2.2)
          | none => (out.1, metaRaw :: out.2.1, out.2.2)
      else
        match findMk (c :: rest) with
        | none => (emitText (c :: rest), [], [])
        | some k =>
          let out := processBufF p fuel (List.drop k (c :: rest))
          (emitText (List.take k (c :: rest)) ++ out.1, out.2.1, out.2.2) := by
  rfl

theorem processBufF_irrel {M : Type u} (p : List Char → Option M) :
    ∀ f₁ f₂ : Nat, ∀ buf : List Char, buf.length < f₁ → buf.length < f₂ →
      processBufF p f₁ buf = processBufF p f₂ buf := by
  intro f₁
  induction f₁ with
  | zero =>
    intro f₂ buf h₁ h₂
    exact absurd h₁ (Nat.not_lt_zero _)
  | succ n ih =>
    intro f₂ buf h₁ h₂
    cases f₂ with
    | zero => exact absurd h₂ (Nat.not_lt_zero _)
    | succ m =>
      cases buf with
      | nil => rfl
      | cons c rest =>
        rw [processBufF_succ_cons, processBufF_succ_cons]
        by_cases hmk : List.take 8 (c :: rest) = mkMarker
        · rw [if_pos hmk, if_pos hmk]
          cases hnl : findNl (c :: rest) with
          | none => rfl
          | some metaEnd =>
            have hlt := findNl_lt hnl
            simp only [List.length_cons] at h₁ h₂ hlt
            have hA : (List.drop (metaEnd + 1) (c :: rest)).length < n := by
              rw [List.length_drop]
              simp only [List.length_cons]
              omega
            have hB : (List.drop (metaEnd + 1) (c :: rest)).length < m := by
              rw [List.length_drop]
              simp only [List.length_cons]
              omega
            have hx := ih m (List.drop (metaEnd + 1) (c :: rest)) hA hB
            simp only [hx]
        · rw [if_neg hmk, if_neg hmk]
          cases hfk : findMk (c :: rest) with
          | none => rfl
          | some k =>
            have hk1 := findMk_pos hmk hfk
            have hkb := (findMk_bound hfk).1
            simp only [List.length_cons] at h₁ h₂ hkb
            have hA : (List.drop k (c :: rest)).length < n := by
              rw [List.length_drop]
              simp only [List.length_cons]
              omega
            have hB : (List.drop k (c :: rest)).length < m := by
              rw [List.length_drop]
              simp only [List.length_cons]
              omega
            have hx := ih m (List.drop k (c :: rest)) hA hB
            simp only [hx]

theorem processBuf_nil {M : Type u} (p : List Char → Option M) :
    processBuf p [] = ([], [], []) := rfl

theorem processBuf_hold {M : Type u} (p : List Char → Option M)
    {buf : List Char} (h1 : List.take 8 buf = mkMarker)
    (h2 : findNl buf = none) : processBuf p buf = ([], [], buf) := by
  cases buf with
  | nil => exact absurd h1 (by decide)
  | cons c rest =>
    rw [show processBuf p (c :: rest) = processBufF p (rest.length + 1 + 1) (c :: rest) from rfl,
      processBufF_succ_cons, if_pos h1, h2]

theorem processBuf_meta_some {M : Type u} (p : List Char → Option M)
    {buf : List Char} {i : Nat} {m : M}
    (h1 : List.take 8 buf = mkMarker) (h2 : findNl buf = some i)
    (h3 : p ((List.take i buf).drop 8) = some m) :
    processBuf p buf =
      (Frame.meta m :: (processBuf p (List.drop (i + 1) buf)).1,
       (processBuf p (List.drop (i + 1) buf)).2.1,
       (processBuf p (List.drop (i + 1) buf)).2.2) := by
  cases buf with
  | nil => exact absurd h1 (by decide)
  | cons c rest =>
    have hlt := findNl_lt h2
    simp only [List.length_cons] at hlt
    rw [show processBuf p (c :: rest) = processBufF p (rest.length + 1 + 1) (c :: rest) from rfl,
      processBufF_succ_cons, if_pos h1, h2]
    simp only [h3]
    have hD : (List.drop (i + 1) (c :: rest)).length < rest.length + 1 := by
      rw [List.length_drop]
      simp only [List.length_cons]
      omega
    have hx := processBufF_irrel p (rest.length + 1)
      ((List.drop (i + 1) (c :: rest)).length + 1)
      (List.drop (i + 1) (c :: rest)) hD (Nat.lt_succ_self _)
    simp only [hx]
    rfl

theorem processBuf_meta_none {M : Type u} (p : List Char → Option M)
    {buf : List Char} {i : Nat}
    (h1 : List.take 8 buf = mkMarker) (h2 : findNl buf = some i)
    (h3 : p ((List.take i buf).drop 8) = none) :
    processBuf p buf =
      ((processBuf p (List.drop (i + 1) buf)).1,
       (List.take i buf).drop 8 :: (processBuf p (List.drop (i + 1) buf)).2.1,
       (processBuf p (List.drop (i + 1) buf)).2.2) := by
  cases buf with
  | nil => exact absurd h1 (by decide)
  | cons c rest =>
    have hlt := findNl_lt h2
    simp only [List.length_cons] at hlt
    rw [show processBuf p (c :: rest) = processBufF p (rest.length + 1 + 1) (c :: rest) from rfl,
      processBufF_succ_cons, if_pos h1, h2]
    simp only [h3]
    have hD : (List.drop (i + 1) (c :: rest)).length < rest.length + 1 := by
      rw [List.length_drop]
      simp only [List.length_cons]
      omega
    have hx := processBufF_irrel p (rest.length + 1)
      ((List.drop (i + 1) (c :: rest)).length + 1)
      (List.drop (i + 1) (c :: rest)) hD (Nat.lt_succ_self _)
    simp only [hx]
    rfl

theorem processBuf_text_none {M : Type u} (p : List Char → Option M)
    {buf : List Char} (h0 : buf ≠ [])
    (h1 : List.take 8 buf ≠ mkMarker) (h2 : findMk buf = none) :
    processBuf p buf = (emitText buf, [], []) := by
  cases buf with
  | nil => exact absurd rfl h0
  | cons c rest =>
    rw [show processBuf p (c :: rest) = processBufF p (rest.length + 1 + 1) (c :: rest) from rfl,
      processBufF_succ_cons, if_neg h1, h2]

theorem processBuf_text_some {M : Type u} (p : List Char → Option M)
    {buf : List Char} {k : Nat}
    (h1 : List.take 8 buf ≠ mkMarker) (h2 : findMk buf = some k) :
    processBuf p buf =
      (emitText (List.take k buf) ++ (processBuf p (List.drop k buf)).1,
       (processBuf p (List.drop k buf)).2.1,
       (processBuf p (List.drop k buf)).2.2) := by
  cases buf with
  | nil => simp [findMk] at h2
  | cons c rest =>
    have hk1 := findMk_pos h1 h2
    rw [show processBuf p (c :: rest) = processBufF p (rest.length + 1 + 1) (c :: rest) from rfl,
      processBufF_succ_cons, if_neg h1, h2]
    have hD : (List.drop k (c :: rest)).length < rest.length + 1 := by
      rw [List.length_drop]
      simp only [List.length_cons]
      omega
    have hx := processBufF_irrel p (rest.length + 1)
      ((List.drop k (c :: rest)).length + 1)
      (List.drop k (c :: rest)) hD (Nat.lt_succ_self _)
    simp only [hx]
    rfl

theorem processBuf_residual {M : Type u} (p : List Char → Option M) :
    ∀ buf : List Char,
      (processBuf p buf).2.2 = [] ∨
      (List.take 8 (processBuf p buf).2.2 = mkMarker ∧
        findNl (processBuf p buf).2.2 = none) := by
  have H : ∀ n : Nat, ∀ buf : List Char, buf.length ≤ n →
      (processBuf p buf).2.2 = [] ∨
      (List.take 8 (processBuf p buf).2.2 = mkMarker ∧
        findNl (processBuf p buf).2.2 = none) := by
    intro n
    induction n with
    | zero =>
      intro buf hlen
      have : buf = [] := List.length_eq_zero.mp (Nat.le_zero.mp hlen)
      subst this
      left
      rfl
    | succ n ih =>
      intro buf hlen
      by_cases hmk : List.take 8 buf = mkMarker
      · cases hnl : findNl buf with
        | none =>
          rw [processBuf_hold p hmk hnl]
          right
          exact ⟨hmk, hnl⟩
        | some i =>
          have hlt := findNl_lt hnl
          have hD : (List.drop (i + 1) buf).length ≤ n := by
            rw [List.length_drop]
            omega
          cases hp : p ((List.take i buf).drop 8) with
          | some m =>
            rw [processBuf_meta_some p hmk hnl hp]
            exact ih _ hD
          | none =>
            rw [processBuf_meta_none p hmk hnl hp]
            exact ih _ hD
      · cases hbuf : buf with
        | nil =>
          left
          rfl
        | cons c rest =>
          rw [← hbuf]
          cases hfk : findMk buf with
          | none =>
            rw [processBuf_text_none p (by rw [hbuf]; exact List.cons_ne_nil c rest) hmk hfk]
            left
            rfl
          | some k =>
            have hk1 := findMk_pos hmk hfk
            have hkb := (findMk_bound hfk).1
            have hD : (List.drop k buf).length ≤ n := by
              rw [List.length_drop]
              omega
            rw [processBuf_text_some p hmk hfk]
            exact ih _ hD
  intro buf
  exact H buf.length buf (Nat.le_refl _)

/-- A buffer is quiescent when running the decoder loop on it alone
emits nothing and keeps it intact: the empty buffer, or a recognised
but unterminated meta frame. -/
theorem processBuf_quiescent {M : Type u} (p : List Char → Option M)
    {r : List Char}
    (h : r = [] ∨ (List.take 8 r = mkMarker ∧ findNl r = none)) :
    processBuf p r = ([], [], r) := by
  rcases h with rfl | ⟨h1, h2⟩
  · rfl
  · exact processBuf_hold p h1 h2

theorem findMk_pos_not_marker {l : List Char} {k : Nat}
    (h : findMk l = some k) (hk : 1 ≤ k) : List.take 8 l ≠ mkMarker := by
  cases l with
  | nil => simp [findMk] at h
  | cons c rest =>
    intro hmk
    rw [findMk_cons, if_pos hmk] at h
    injection h with h0
    omega

theorem stepOkF_succ_cons (fuel : Nat) (c : Char) (rest e : List Char) :
    stepOkF (fuel + 1) (c :: rest) e =
      if List.take 8 (c :: rest) = mkMarker then
        match findNl (c :: rest) with
        | none => true
        | some i => stepOkF fuel (List.drop (i + 1) (c :: rest)) e
      else
        match findMk (c :: rest) with
        | none =>
          e.isEmpty || decide (findMk ((c :: rest) ++ e) = some (c :: rest).length)
        | some k => stepOkF fuel (List.drop k (c :: rest)) e := rfl

theorem stepOkF_irrel :
    ∀ f₁ f₂ : Nat, ∀ buf e : List Char, buf.length < f₁ → buf.length < f₂ →
      stepOkF f₁ buf e = stepOkF f₂ buf e := by
  intro f₁
  induction f₁ with
  | zero =>
    intro f₂ buf e h₁ h₂
    exact absurd h₁ (Nat.not_lt_zero _)
  | succ n ih =>
    intro f₂ buf e h₁ h₂
    cases f₂ with
    | zero => exact absurd h₂ (Nat.not_lt_zero _)
    | succ m =>
      cases buf with
      | nil => rfl
      | cons c rest =>
        rw [stepOkF_succ_cons, stepOkF_succ_cons]
        by_cases hmk : List.take 8 (c :: rest) = mkMarker
        · rw [if_pos hmk, if_pos hmk]
          cases hnl : findNl (c :: rest) with
          | none => rfl
          | some i =>
            have hlt := findNl_lt hnl
            simp only [List.length_cons] at h₁ h₂ hlt
            have hA : (List.drop (i + 1) (c :: rest)).length < n := by
              rw [List.length_drop]
              simp only [List.length_cons]
              omega
            have hB : (List.drop (i + 1) (c :: rest)).length < m := by
              rw [List.length_drop]
              simp only [List.length_cons]
              omega
            exact ih m _ e hA hB
        · rw [if_neg hmk, if_neg hmk]
          cases hfk : findMk (c :: rest) with
          | none => rfl
          | some k =>
            have hk1 := findMk_pos hmk hfk
            simp only [List.length_cons] at h₁ h₂
            have hA : (List.drop k (c :: rest)).length < n := by
              rw [List.length_drop]
              simp only [List.length_cons]
              omega
            have hB : (List.drop k (c :: rest)).length < m := by
              rw [List.length_drop]
              simp only [List.length_cons]
              omega
            exact ih m _ e hA hB

theorem stepOk_hold {buf : List Char} (e : List Char)
    (h1 : List.take 8 buf = mkMarker) (h2 : findNl buf = none) :
    stepOk buf e = true := by
  cases buf with
  | nil => exact absurd h1 (by decide)
  | cons c rest =>
    rw [show stepOk (c :: rest) e = stepOkF (rest.length + 1 + 1) (c :: rest) e from rfl,
      stepOkF_succ_cons, if_pos h1, h2]

theorem stepOk_meta {buf : List Char} {i : Nat} (e : List Char)
    (h1 : List.take 8 buf = mkMarker) (h2 : findNl buf = some i) :
    stepOk buf e = stepOk (List.drop (i + 1) buf) e := by
  cases buf with
  | nil => exact absurd h1 (by decide)
  | cons c rest =>
    have hlt := findNl_lt h2
    simp only [List.length_cons] at hlt
    rw [show stepOk (c :: rest) e = stepOkF (rest.length + 1 + 1) (c :: rest) e from rfl,
      stepOkF_succ_cons, if_pos h1, h2]
    have hD : (List.drop (i + 1) (c :: rest)).length < rest.length + 1 := by
      rw [List.length_drop]
      simp only [List.length_cons]
      omega
    exact stepOkF_irrel (rest.length + 1) _ _ e hD (Nat.lt_succ_self _)

theorem stepOk_text_none {buf : List Char} (e : List Char) (h0 : buf ≠ [])
    (h1 : List.take 8 buf ≠ mkMarker) (h2 : findMk buf = none) :
    stepOk buf e =
      (e.isEmpty || decide (findMk (buf ++ e) = some buf.length)) := by
  cases buf with
  | nil => exact absurd rfl h0
  | cons c rest =>
    rw [show stepOk (c :: rest) e = stepOkF (rest.length + 1 + 1) (c :: rest) e from rfl,
      stepOkF_succ_cons, if_neg h1, h2]

theorem stepOk_text_some {buf : List Char} {k : Nat} (e : List Char)
    (h1 : List.take 8 buf ≠ mkMarker) (h2 : findMk buf = some k) :
    stepOk buf e = stepOk (List.drop k buf) e := by
  cases buf with
  | nil => simp [findMk] at h2
  | cons c rest =>
    have hk1 := findMk_pos h1 h2
    rw [show stepOk (c :: rest) e = stepOkF (rest.length + 1 + 1) (c :: rest) e from rfl,
      stepOkF_succ_cons, if_neg h1, h2]
    have hD : (List.drop k (c :: rest)).length < rest.length + 1 := by
      rw [List.length_drop]
      simp only [List.length_cons]
      omega
    exact stepOkF_irrel (rest.length + 1) _ _ e hD (Nat.lt_succ_self _)

theorem processBufF_resid {M : Type u} (p : List Char → Option M) :
    ∀ fuel : Nat, ∀ buf : List Char,
      (processBufF p fuel buf).2.2 = (processBufF pRaw fuel buf).2.2 := by
  intro fuel
  induction fuel with
  | zero =>
    intro buf
    rfl
  | succ n ih =>
    intro buf
    cases buf with
    | nil => rfl
    | cons c rest =>
      rw [processBufF_succ_cons, processBufF_succ_cons]
      by_cases hmk : List.take 8 (c :: rest) = mkMarker
      · rw [if_pos hmk, if_pos hmk]
        cases hnl : findNl (c :: rest) with
        | none => rfl
        | some i =>
          cases hp : p ((List.take i (c :: rest)).drop 8) with
          | some m =>
            simp only [hp, pRaw]
            exact ih _
          | none =>
            simp only [hp, pRaw]
            exact ih _
      · rw [if_neg hmk, if_neg hmk]
        cases hfk : findMk (c :: rest) with
        | none => rfl
        | some k =>
          simp only []
          exact ih _

theorem processBuf_resid {M : Type u} (p : List Char → Option M)
    (b : List Char) : (processBuf p b).2.2 = resid b :=
  processBufF_resid p _ b

theorem processBuf_append_aux {M : Type u} (p : List Char → Option M) :
    ∀ n : Nat, ∀ b : List Char, b.length ≤ n → ∀ e : List Char, stepOk b e = true →
      processBuf p (b ++ e) =
        ((processBuf p b).1 ++ (processBuf p ((processBuf p b).2.2 ++ e)).1,
         (processBuf p b).2.1 ++ (processBuf p ((processBuf p b).2.2 ++ e)).2.1,
         (processBuf p ((processBuf p b).2.2 ++ e)).2.2) := by
  intro n
  induction n with
  | zero =>
    intro b hlen e hex
    have hb : b = [] := List.length_eq_zero.mp (Nat.le_zero.mp hlen)
    subst hb
    simp [processBuf_nil]
  | succ n ih =>
    intro b hlen e hex
    by_cases hmk : List.take 8 b = mkMarker
    · cases hnl : findNl b with
      | none =>
        rw [processBuf_hold p hmk hnl]
        simp
      | some i =>
        have hlt := findNl_lt hnl
        have h8 := take8_marker_length hmk
        have hmk' : List.take 8 (b ++ e) = mkMarker := by
          rw [List.take_append_of_le_length h8]
          exact hmk
        have hnl' : findNl (b ++ e) = some i := findNl_append_some hnl e
        have hraw : (List.take i (b ++ e)).drop 8 = (List.take i b).drop 8 := by
          rw [List.take_append_of_le_length (Nat.le_of_lt hlt)]
        have hdrop : List.drop (i + 1) (b ++ e) = List.drop (i + 1) b ++ e :=
          List.drop_append_of_le_length hlt
        have hex' : stepOk (List.drop (i + 1) b) e = true := by
          rw [← stepOk_meta e hmk hnl]
          exact hex
        have hlen' : (List.drop (i + 1) b).length ≤ n := by
          rw [List.length_drop]
          omega
        have key := ih (List.drop (i + 1) b) hlen' e hex'
        cases hp : p ((List.take i b).drop 8) with
        | some m =>
          have hp' : p ((List.take i (b ++ e)).drop 8) = some m := by
            rw [hraw]
            exact hp
          rw [processBuf_meta_some p hmk' hnl' hp', hdrop, key,
            processBuf_meta_some p hmk hnl hp]
          simp
        | none =>
          have hp' : p ((List.take i (b ++ e)).drop 8) = none := by
            rw [hraw]
            exact hp
          rw [processBuf_meta_none p hmk' hnl' hp', hdrop, key,
            processBuf_meta_none p hmk hnl hp]
          simp [hraw]
    · cases hb : b with
      | nil =>
        subst hb
        simp [processBuf_nil]
      | cons c rest =>
        have hbne : b ≠ [] := by
          rw [hb]
          exact List.cons_ne_nil _ _
        rw [← hb] at *
        cases hfk : findMk b with
        | none =>
          rw [stepOk_text_none e hbne hmk hfk, Bool.or_eq_true] at hex
          rcases hex with he | hfb
          · have he' : e = [] := by
              cases e with
              | nil => rfl
              | cons x xs => simp [List.isEmpty] at he
            subst he'
            rw [List.append_nil, processBuf_text_none p hbne hmk hfk]
            simp [processBuf_nil]
          · have hfb' : findMk (b ++ e) = some b.length := of_decide_eq_true hfb
            have h1b : 1 ≤ b.length := by
              cases b with
              | nil => exact absurd rfl hbne
              | cons x xs =>
                rw [List.length_cons]
                omega
            have hmk' : List.take 8 (b ++ e) ≠ mkMarker :=
              findMk_pos_not_marker hfb' h1b
            rw [processBuf_text_some p hmk' hfb',
              show List.take b.length (b ++ e) = b from List.take_left _ _,
              show List.drop b.length (b ++ e) = e from List.drop_left _ _,
              processBuf_text_none p hbne hmk hfk]
            simp
        | some k =>
          have hkb := (findMk_bound hfk).1
          have hk1 := findMk_pos hmk hfk
          have h8b : 8 ≤ b.length := by omega
          have hmk' : List.take 8 (b ++ e) ≠ mkMarker := by
            rw [List.take_append_of_le_length h8b]
            exact hmk
          have hfk' : findMk (b ++ e) = some k := findMk_append_some hfk e
          have htake : List.take k (b ++ e) = List.take k b :=
            List.take_append_of_le_length (by omega)
          have hdrop : List.drop k (b ++ e) = List.drop k b ++ e :=
            List.drop_append_of_le_length (by omega)
          have hex' : stepOk (List.drop k b) e = true := by
            rw [← stepOk_text_some e hmk hfk]
            exact hex
          have hlen' : (List.drop k b).length ≤ n := by
            rw [List.length_drop]
            omega
          have key := ih (List.drop k b) hlen' e hex'
          rw [processBuf_text_some p hmk' hfk', htake, hdrop, key,
            processBuf_text_some p hmk hfk]
          simp

theorem processBuf_append {M : Type u} (p : List Char → Option M)
    (b e : List Char) (hex : stepOk b e = true) :
    processBuf p (b ++ e) =
      ((processBuf p b).1 ++ (processBuf p ((processBuf p b).2.2 ++ e)).1,
       (processBuf p b).2.1 ++ (processBuf p ((processBuf p b).2.2 ++ e)).2.1,
       (processBuf p ((processBuf p b).2.2 ++ e)).2.2) :=
  processBuf_append_aux p b.length b (Nat.le_refl _) e hex

theorem runDecoder_cons {M : Type u} (p : List Char → Option M)
    (r c : List Char) (cs : List (List Char)) :
    runDecoder p r (c :: cs) =
      ((processBuf p (r ++ c)).1 ++ (runDecoder p (processBuf p (r ++ c)).2.2 cs).1,
       (processBuf p (r ++ c)).2.1 ++ (runDecoder p (processBuf p (r ++ c)).2.2 cs).2.1,
       (runDecoder p (processBuf p (r ++ c)).2.2 cs).2.2) := rfl

theorem runDecoder_flatten {M : Type u} (p : List Char → Option M) :
    ∀ cs : List (List Char), ∀ r : List Char,
      alignedRun r cs = true →
      (r = [] ∨ (List.take 8 r = mkMarker ∧ findNl r = none)) →
      runDecoder p r cs = processBuf p (r ++ cs.flatten) := by
  intro cs
  induction cs with
  | nil =>
    intro r hal hq
    rw [show runDecoder p r [] = ([], [], r) from rfl]
    simp only [List.flatten_nil, List.append_nil]
    exact (processBuf_quiescent p hq).symm
  | cons c cs' ih =>
    intro r hal hq
    rw [show alignedRun r (c :: cs') =
        (stepOk (r ++ c) cs'.flatten && alignedRun (resid (r ++ c)) cs') from rfl,
      Bool.and_eq_true] at hal
    obtain ⟨hal1, hal2⟩ := hal
    rw [runDecoder_cons]
    have hq' := processBuf_residual p (r ++ c)
    have halr : alignedRun (processBuf p (r ++ c)).2.2 cs' = true := by
      rw [processBuf_resid]
      exact hal2
    have ihx := ih ((processBuf p (r ++ c)).2.2) halr hq'
    rw [ihx]
    have hre : r ++ (c :: cs').flatten = (r ++ c) ++ cs'.flatten := by
      simp [List.flatten_cons, List.append_assoc]
    rw [hre, processBuf_append p (r ++ c) cs'.flatten hal1]

/-! ## Pacer lemmas -/

theorem dropWhile_eq_drop_length (q : Char → Bool) :
    ∀ l : List Char, l.dropWhile q = l.drop (l.takeWhile q).length := by
  intro l
  induction l with
  | nil => rfl
  | cons c rest ih =>
    by_cases hc : q c
    · simp [List.dropWhile_cons, List.takeWhile_cons, hc, ih]
    · simp [List.dropWhile_cons, List.takeWhile_cons, hc]

theorem takeWhile_append_drop_self (q : Char → Bool) (l : List Char) :
    l.takeWhile q ++ l.drop (l.takeWhile q).length = l := by
  rw [← dropWhile_eq_drop_length]
  exact List.takeWhile_append_dropWhile q l

theorem findSentence_pos {buf : List Char} {q : Nat × List Char}
    (h : findSentence buf = some q) : 0 < q.2.length := by
  induction buf generalizing q with
  | nil => simp [findSentence] at h
  | cons c rest ih =>
    rw [show findSentence (c :: rest) =
        (if isTerm c then (findSentence rest).map (fun q => (q.1 + 1, q.2))
         else
           if (List.takeWhile isTerm
              (List.drop (List.takeWhile (fun x => !isTerm x) (c :: rest)).length
                (c :: rest))).isEmpty then none
           else some (0, List.takeWhile (fun x => !isTerm x) (c :: rest) ++
             List.takeWhile isTerm
               (List.drop (List.takeWhile (fun x => !isTerm x) (c :: rest)).length
                 (c :: rest)))) from rfl] at h
    by_cases hc : isTerm c
    · rw [if_pos hc] at h
      obtain ⟨q', hq', rfl⟩ := Option.map_eq_some'.mp h
      have hx := ih hq'
      exact hx
    · rw [if_neg hc] at h
      by_cases he : (List.takeWhile isTerm
          (List.drop (List.takeWhile (fun x => !isTerm x) (c :: rest)).length
            (c :: rest))).isEmpty
      · rw [if_pos he] at h
        exact absurd h (by simp)
      · rw [if_neg he] at h
        obtain rfl : q = (0, List.takeWhile (fun x => !isTerm x) (c :: rest) ++
            List.takeWhile isTerm
              (List.drop (List.takeWhile (fun x => !isTerm x) (c :: rest)).length
                (c :: rest))) := by
          cases h
          rfl
        simp only [List.length_append]
        have : (List.takeWhile (fun x => !isTerm x) (c :: rest)).length ≥ 1 := by
          rw [List.takeWhile_cons, if_pos (by simp [hc])]
          simp
        omega

theorem findSentence_cons (c : Char) (rest : List Char) :
    findSentence (c :: rest) =
      if isTerm c then (findSentence rest).map (fun q => (q.1 + 1, q.2))
      else
        if (List.takeWhile isTerm
            (List.drop (List.takeWhile (fun x => !isTerm x) (c :: rest)).length
              (c :: rest))).isEmpty then none
        else some (0, List.takeWhile (fun x => !isTerm x) (c :: rest) ++
          List.takeWhile isTerm
            (List.drop (List.takeWhile (fun x => !isTerm x) (c :: rest)).length
              (c :: rest))) := rfl

theorem findSentence_zero_prefix {buf m : List Char}
    (h : findSentence buf = some (0, m)) :
    m ++ List.drop m.length buf = buf := by
  cases buf with
  | nil => simp [findSentence] at h
  | cons c rest =>
    rw [findSentence_cons] at h
    by_cases hc : isTerm c
    · rw [if_pos hc] at h
      obtain ⟨q', _, heq⟩ := Option.map_eq_some'.mp h
      exact absurd (congrArg Prod.fst heq) (by simp)
    · rw [if_neg hc] at h
      by_cases he : (List.takeWhile isTerm
          (List.drop (List.takeWhile (fun x => !isTerm x) (c :: rest)).length
            (c :: rest))).isEmpty
      · rw [if_pos he] at h
        exact absurd h (by simp)
      · rw [if_neg he] at h
        have hm : m = List.takeWhile (fun x => !isTerm x) (c :: rest) ++
            List.takeWhile isTerm
              (List.drop (List.takeWhile (fun x => !isTerm x) (c :: rest)).length
                (c :: rest)) := by
          cases h
          rfl
        subst hm
        set l := c :: rest with hl
        set ns := List.takeWhile (fun x => !isTerm x) l with hns
        set l2 := List.drop ns.length l with hl2
        set ts := List.takeWhile isTerm l2 with hts
        have h1 : ns ++ l2 = l := takeWhile_append_drop_self _ l
        have h2 : ts ++ List.drop ts.length l2 = l2 := takeWhile_append_drop_self _ l2
        have h3 : List.drop (ns ++ ts).length l = List.drop ts.length l2 := by
          rw [List.length_append, hl2, List.drop_drop]
        rw [h3, List.append_assoc, h2, h1]

theorem drainBufF_succ (fuel : Nat) (buf : List Char) :
    drainBufF (fuel + 1) buf =
      match findSentence buf with
      | none => ([], buf)
      | some q =>
        let out := drainBufF fuel (List.drop q.2.length buf)
        (q.2 :: out.1, out.2) := rfl

theorem drainBufF_irrel :
    ∀ f₁ f₂ : Nat, ∀ buf : List Char, buf.length < f₁ → buf.length < f₂ →
      drainBufF f₁ buf = drainBufF f₂ buf := by
  intro f₁
  induction f₁ with
  | zero =>
    intro f₂ buf h₁ h₂
    exact absurd h₁ (Nat.not_lt_zero _)
  | succ n ih =>
    intro f₂ buf h₁ h₂
    cases f₂ with
    | zero => exact absurd h₂ (Nat.not_lt_zero _)
    | succ m =>
      rw [drainBufF_succ, drainBufF_succ]
      cases hfs : findSentence buf with
      | none => rfl
      | some q =>
        have hpos := findSentence_pos hfs
        have hne : buf ≠ [] := by
          intro hnil
          rw [hnil] at hfs
          simp [findSentence] at hfs
        have hlen : 1 ≤ buf.length := by
          cases buf with
          | nil => exact absurd rfl hne
          | cons a l => simp
        have hA : (List.drop q.2.length buf).length < n := by
          rw [List.length_drop]
          omega
        have hB : (List.drop q.2.length buf).length < m := by
          rw [List.length_drop]
          omega
        have hx := ih m _ hA hB
        simp only [hx]

theorem drainBuf_none {buf : List Char} (h : findSentence buf = none) :
    drainBuf buf = ([], buf) := by
  rw [show drainBuf buf = drainBufF (buf.length + 1) buf from rfl]
  cases buf with
  | nil => rfl
  | cons c rest =>
    rw [drainBufF_succ, h]

theorem drainBuf_some {buf : List Char} {q : Nat × List Char}
    (h : findSentence buf = some q) :
    drainBuf buf =
      (q.2 :: (drainBuf (List.drop q.2.length buf)).1,
       (drainBuf (List.drop q.2.length buf)).2) := by
  have hpos := findSentence_pos h
  have hne : buf ≠ [] := by
    intro hnil
    rw [hnil] at h
    simp [findSentence] at h
  have hlen : 1 ≤ buf.length := by
    cases buf with
    | nil => exact absurd rfl hne
    | cons a l => simp
  rw [show drainBuf buf = drainBufF (buf.length + 1) buf from rfl, drainBufF_succ, h]
  have hD : (List.drop q.2.length buf).length < buf.length := by
    rw [List.length_drop]
    omega
  have hx := drainBufF_irrel buf.length ((List.drop q.2.length buf).length + 1)
    (List.drop q.2.length buf) hD (Nat.lt_succ_self _)
  simp only [hx]
  rfl

theorem drainAnchoredF_succ (fuel : Nat) (buf : List Char) :
    drainAnchoredF (fuel + 1) buf =
      match findSentence buf with
      | none => true
      | some q => (q.1 == 0) && drainAnchoredF fuel (List.drop q.2.length buf) := rfl

theorem drainAnchoredF_irrel :
    ∀ f₁ f₂ : Nat, ∀ buf : List Char, buf.length < f₁ → buf.length < f₂ →
      drainAnchoredF f₁ buf = drainAnchoredF f₂ buf := by
  intro f₁
  induction f₁ with
  | zero =>
    intro f₂ buf h₁ h₂
    exact absurd h₁ (Nat.not_lt_zero _)
  | succ n ih =>
    intro f₂ buf h₁ h₂
    cases f₂ with
    | zero => exact absurd h₂ (Nat.not_lt_zero _)
    | succ m =>
      rw [drainAnchoredF_succ, drainAnchoredF_succ]
      cases hfs : findSentence buf with
      | none => rfl
      | some q =>
        have hpos := findSentence_pos hfs
        have hne : buf ≠ [] := by
          intro hnil
          rw [hnil] at hfs
          simp [findSentence] at hfs
        have hlen : 1 ≤ buf.length := by
          cases buf with
          | nil => exact absurd rfl hne
          | cons a l => simp
        have hA : (List.drop q.2.length buf).length < n := by
          rw [List.length_drop]
          omega
        have hB : (List.drop q.2.length buf).length < m := by
          rw [List.length_drop]
          omega
        have hx := ih m _ hA hB
        simp only [hx]

theorem drainAnchored_none {buf : List Char} (h : findSentence buf = none) :
    drainAnchored buf = true := by
  rw [show drainAnchored buf = drainAnchoredF (buf.length + 1) buf from rfl,
    drainAnchoredF_succ, h]

theorem drainAnchored_some {buf : List Char} {q : Nat × List Char}
    (h : findSentence buf = some q) :
    drainAnchored buf =
      ((q.1 == 0) && drainAnchored (List.drop q.2.length buf)) := by
  have hpos := findSentence_pos h
  have hne : buf ≠ [] := by
    intro hnil
    rw [hnil] at h
    simp [findSentence] at h
  have hlen : 1 ≤ buf.length := by
    cases buf with
    | nil => exact absurd rfl hne
    | cons a l => simp
  rw [show drainAnchored buf = drainAnchoredF (buf.length + 1) buf from rfl,
    drainAnchoredF_succ, h]
  have hD : (List.drop q.2.length buf).length < buf.length := by
    rw [List.length_drop]
    omega
  have hx := drainAnchoredF_irrel buf.length ((List.drop q.2.length buf).length + 1)
    (List.drop q.2.length buf) hD (Nat.lt_succ_self _)
  simp only [hx]
  rfl

theorem drainBuf_conserves_aux :
    ∀ n : Nat, ∀ buf : List Char, buf.length ≤ n → drainAnchored buf = true →
      (drainBuf buf).1.flatten ++ (drainBuf buf).2 = buf := by
  intro n
  induction n with
  | zero =>
    intro buf hlen _
    have hb : buf = [] := List.length_eq_zero.mp (Nat.le_zero.mp hlen)
    subst hb
    rfl
  | succ n ih =>
    intro buf hlen han
    cases hfs : findSentence buf with
    | none =>
      rw [drainBuf_none hfs]
      simp
    | some q =>
      have hpos := findSentence_pos hfs
      have hne : buf ≠ [] := by
        intro hnil
        rw [hnil] at hfs
        simp [findSentence] at hfs
      have hlen1 : 1 ≤ buf.length := by
        cases buf with
        | nil => exact absurd rfl hne
        | cons a l => simp
      rw [drainAnchored_some hfs, Bool.and_eq_true] at han
      obtain ⟨hq0, han'⟩ := han
      have hq0' : q.1 = 0 := by
        simpa using hq0
      rw [drainBuf_some hfs]
      have hD : (List.drop q.2.length buf).length ≤ n := by
        rw [List.length_drop]
        omega
      have hrec := ih (List.drop q.2.length buf) hD han'
      have hq : findSentence buf = some (0, q.2) := by
        rw [hfs]
        cases q with
        | mk a b =>
          simp at hq0' ⊢
          exact hq0'
      have hpre := findSentence_zero_prefix hq
      simp only [List.flatten_cons, List.append_assoc, hrec]
      exact hpre

theorem pacer_cons (sbuf c : List Char) (cs : List (List Char)) :
    runPacer sbuf (c :: cs) =
      ((drainBuf (sbuf ++ c)).1 ++ (runPacer (drainBuf (sbuf ++ c)).2 cs).1,
       (runPacer (drainBuf (sbuf ++ c)).2 cs).2) := rfl

theorem runPacer_conserves :
    ∀ cs : List (List Char), ∀ sbuf : List Char,
      pacerAnchored sbuf cs = true →
      (runPacer sbuf cs).1.flatten ++ (runPacer sbuf cs).2 = sbuf ++ cs.flatten := by
  intro cs
  induction cs with
  | nil =>
    intro sbuf _
    simp [runPacer]
  | cons c cs' ih =>
    intro sbuf han
    rw [show pacerAnchored sbuf (c :: cs') =
        (drainAnchored (sbuf ++ c) && pacerAnchored (drainBuf (sbuf ++ c)).2 cs') from rfl,
      Bool.and_eq_true] at han
    obtain ⟨h1, h2⟩ := han
    rw [pacer_cons]
    have hdrain := drainBuf_conserves_aux (sbuf ++ c).length (sbuf ++ c)
      (Nat.le_refl _) h1
    have hrec := ih _ h2
    simp only [List.flatten_append, List.append_assoc, hrec]
    rw [← List.append_assoc, hdrain, List.flatten_cons, List.append_assoc]

/-! ## ChatBot lemmas -/

theorem applyChunkV1_not_mem {streamingId : Nat} {chunk : List Char}
    {msgs : List MsgV1} (h : streamingId ∉ msgs.map MsgV1.id) :
    applyChunkV1 streamingId chunk msgs = msgs := by
  induction msgs with
  | nil => rfl
  | cons m ms ih =>
    simp only [List.map_cons, List.mem_cons] at h
    push_neg at h
    obtain ⟨h1, h2⟩ := h
    rw [show applyChunkV1 streamingId chunk (m :: ms) =
        ((if m.id = streamingId then { m with message := m.message ++ chunk } else m) ::
          applyChunkV1 streamingId chunk ms) from rfl]
    rw [if_neg (fun he => h1 he.symm), ih h2]

theorem onMetaV1_truthy {m : MetaMsg} {s : ConvState}
    (h : jsTruthyId s.conv = true) : onMetaV1 m s = s := by
  unfold onMetaV1
  rw [h]
  simp

theorem runConv_truthy {s : ConvState} (h : jsTruthyId s.conv = true) :
    ∀ fs : List (Frame MetaMsg), runConv s fs = s := by
  intro fs
  induction fs with
  | nil => rfl
  | cons f fs ih =>
    cases f with
    | text t => exact ih
    | meta m =>
      rw [show runConv s (Frame.meta m :: fs) = runConv (onMetaV1 m s) fs from rfl,
        onMetaV1_truthy h]
      exact ih

theorem runConv_from_none :
    ∀ fs : List (Frame MetaMsg), ∀ s : ConvState, s.conv = none →
      (∀ c ∈ metaCids fs, c ≠ 0) →
      runConv s fs =
        { conv := (metaCids fs).head?, notes := s.notes ++ (metaCids fs).take 1 } := by
  intro fs
  induction fs with
  | nil =>
    intro s h0 _
    cases s with
    | mk conv notes =>
      simp only at h0
      subst h0
      simp [runConv, metaCids]
  | cons f fs ih =>
    intro s h0 h
    cases f with
    | text t =>
      have hc : metaCids (Frame.text t :: fs) = metaCids fs := rfl
      rw [show runConv s (Frame.text t :: fs) = runConv s fs from rfl, hc]
      rw [hc] at h
      exact ih s h0 h
    | meta m =>
      cases hm : m.conversation_id with
      | none =>
        have hc : metaCids (Frame.meta m :: fs) = metaCids fs := by
          simp [metaCids, hm]
        have hstep : onMetaV1 m s = s := by
          unfold onMetaV1
          rw [hm]
          simp [jsTruthyId]
        rw [show runConv s (Frame.meta m :: fs) = runConv (onMetaV1 m s) fs from rfl,
          hstep, hc]
        rw [hc] at h
        exact ih s h0 h
      | some n =>
        have hc : metaCids (Frame.meta m :: fs) = n :: metaCids fs := by
          simp [metaCids, hm]
        have hn : n ≠ 0 := by
          apply h
          rw [hc]
          exact List.mem_cons_self _ _
        have hstep : onMetaV1 m s = { conv := some n, notes := s.notes ++ [n] } := by
          unfold onMetaV1
          rw [h0, hm]
          simp [jsTruthyId, hn]
        rw [show runConv s (Frame.meta m :: fs) = runConv (onMetaV1 m s) fs from rfl,
          hstep, runConv_truthy (by simp [jsTruthyId, hn]), hc]
        simp

theorem findNl_mkMarker : findNl mkMarker = none := by decide

/-- C7 (claim theorem): a meta frame whose payload fails to parse is
dropped (the frame list is exactly that of the remaining stream),
logged (the raw payload is prepended to the log), and decoding
continues past the `'\n'` terminator with the rest of the buffer
processed unchanged.  The `Frame` type has no error constructor, so no
failure is ever delivered to the user, and in `runDecoder` the frames
already emitted before this frame are untouched. -/
theorem c7_malformed_meta_dropped {M : Type u} (p : List Char → Option M)
    (raw rest : List Char) (h1 : findNl raw = none) (h2 : p raw = none) :
    processBuf p (mkMarker ++ raw ++ '\n' :: rest) =
      ((processBuf p rest).1,
       raw :: (processBuf p rest).2.1,
       (processBuf p rest).2.2) := by
  have hlen : (mkMarker ++ raw).length = 8 + raw.length := by
    simp [mkMarker_length]
  have hmk : List.take 8 (mkMarker ++ raw ++ '\n' :: rest) = mkMarker := by
    rw [show (8 : Nat) = mkMarker.length from mkMarker_length.symm]
    exact List.take_left _ _
  have hnlA : findNl (mkMarker ++ raw) = none := by
    rw [findNl_append_none findNl_mkMarker raw, h1]
    rfl
  have hnl0 : findNl ('\n' :: rest) = some 0 := by
    simp [findNl]
  have hnl : findNl (mkMarker ++ raw ++ '\n' :: rest) = some (raw.length + 8) := by
    rw [findNl_append_none hnlA ('\n' :: rest), hnl0, hlen]
    simp
    omega
  have hi : raw.length + 8 = (mkMarker ++ raw).length := by omega
  have htk : List.take (raw.length + 8) (mkMarker ++ raw ++ '\n' :: rest) =
      mkMarker ++ raw := by
    rw [hi]
    exact List.take_left _ _
  have hraw : (List.take (raw.length + 8) (mkMarker ++ raw ++ '\n' :: rest)).drop 8 = raw := by
    rw [htk, show (8 : Nat) = mkMarker.length from mkMarker_length.symm]
    exact List.drop_left _ _
  have hsplit : mkMarker ++ raw ++ '\n' :: rest = ((mkMarker ++ raw) ++ ['\n']) ++ rest := by
    simp
  have hrest : List.drop (raw.length + 8 + 1) (mkMarker ++ raw ++ '\n' :: rest) = rest := by
    rw [hsplit, show raw.length + 8 + 1 = ((mkMarker ++ raw) ++ ['\n']).length from by
      simp [mkMarker_length]
      omega]
    exact List.drop_left _ _
  have hp : p ((List.take (raw.length + 8) (mkMarker ++ raw ++ '\n' :: rest)).drop 8) = none := by
    rw [hraw]
    exact h2
  rw [processBuf_meta_none p hmk hnl hp, hraw, hrest]

theorem processBufF_text_nonWs {M : Type u} (p : List Char → Option M) :
    ∀ fuel : Nat, ∀ buf : List Char, ∀ f : Frame M,
      f ∈ (processBufF p fuel buf).1 → ∀ t : List Char, f = Frame.text t →
      t.any (fun c => !isWs c) = true := by
  intro fuel
  induction fuel with
  | zero =>
    intro buf f hf
    simp [processBufF] at hf
  | succ n ih =>
    intro buf f hf t hft
    cases buf with
    | nil => simp [processBufF] at hf
    | cons c rest =>
      rw [processBufF_succ_cons] at hf
      by_cases hmk : List.take 8 (c :: rest) = mkMarker
      · rw [if_pos hmk] at hf
        cases hnl : findNl (c :: rest) with
        | none =>
          rw [hnl] at hf
          simp at hf
        | some i =>
          rw [hnl] at hf
          cases hp : p ((List.take i (c :: rest)).drop 8) with
          | some m =>
            simp only [hp] at hf
            rcases List.mem_cons.mp hf with heq | hmem
            · rw [hft] at heq
              exact absurd heq (by simp)
            · exact ih _ f hmem t hft
          | none =>
            simp only [hp] at hf
            exact ih _ f hf t hft
      · rw [if_neg hmk] at hf
        cases hfk : findMk (c :: rest) with
        | none =>
          rw [hfk] at hf
          by_cases hws : (c :: rest).any (fun x => !isWs x)
          · simp only [emitText, if_pos hws, List.mem_singleton] at hf
            rw [hft] at hf
            obtain rfl : t = c :: rest := by
              cases hf
              rfl
            exact hws
          · simp only [emitText, if_neg hws] at hf
            simp at hf
        | some k =>
          rw [hfk] at hf
          simp only [List.mem_append] at hf
          rcases hf with hmem | hmem
          · by_cases hws : (List.take k (c :: rest)).any (fun x => !isWs x)
            · simp only [emitText, if_pos hws, List.mem_singleton] at hmem
              rw [hft] at hmem
              obtain rfl : t = List.take k (c :: rest) := by
                cases hmem
                rfl
              exact hws
            · simp only [emitText, if_neg hws] at hmem
              simp at hmem
          · exact ih _ f hmem t hft

theorem runDecoder_text_nonWs {M : Type u} (p : List Char → Option M) :
    ∀ cs : List (List Char), ∀ r : List Char, ∀ f : Frame M,
      f ∈ (runDecoder p r cs).1 → ∀ t : List Char, f = Frame.text t →
      t.any (fun c => !isWs c) = true := by
  intro cs
  induction cs with
  | nil =>
    intro r f hf
    simp [runDecoder] at hf
  | cons c cs' ih =>
    intro r f hf t hft
    rw [runDecoder_cons] at hf
    simp only [List.mem_append] at hf
    rcases hf with hmem | hmem
    · exact processBufF_text_nonWs p _ _ f hmem t hft
    · exact ih _ f hmem t hft

theorem runDecoder_residual {M : Type u} (p : List Char → Option M) :
    ∀ cs : List (List Char), ∀ r : List Char,
      (r = [] ∨ (List.take 8 r = mkMarker ∧ findNl r = none)) →
      ((runDecoder p r cs).2.2 = [] ∨
        (List.take 8 (runDecoder p r cs).2.2 = mkMarker ∧
          findNl (runDecoder p r cs).2.2 = none)) := by
  intro cs
  induction cs with
  | nil =>
    intro r hr
    exact hr
  | cons c cs' ih =>
    intro r _
    rw [runDecoder_cons]
    exact ih _ (processBuf_residual p (r ++ c))

/-! ## Claim theorems -/

/-- C1 (counterexample): splitting the plain-text byte sequence
`'a b'` into the chunks `['a', ' ', 'b']` changes the decoded output:
the lone-space chunk is dropped by the `text.trim()` filter, so the
incremental text is `'ab'` while whole-buffer decoding yields `'a b'`
(meta payloads are the same, namely none).  The claim's universal
chunking invariance is therefore false. -/
theorem c1_counterexample :
    metasOf (runDecoder pRaw [] ["a".toList, " ".toList, "b".toList]).1 =
      metasOf (runDecoder pRaw [] ["a b".toList]).1 ∧
    textOf (runDecoder pRaw [] ["a".toList, " ".toList, "b".toList]).1 ≠
      textOf (runDecoder pRaw [] ["a b".toList]).1 := by
  decide

/-- C1 (claim theorem, amended): incremental decoding reproduces
whole-buffer decoding — same frames in the same order, same parse-error
log, same final residual — for every chunking in which each chunk
boundary lands at a frame boundary or inside a recognised meta frame
(anywhere after its full `'__META__'` marker, including mid-payload),
formalised as `alignedRun`.  A boundary at the end of a text segment
counts as a frame boundary exactly when the remaining stream starts
with a full marker right at the boundary — `stepOk` accepts it via
`findMk (t ++ e) = some t.length`, which covers e.g.
`['Hello ', '__META__...']`.  Excluded are boundaries inside the marker
(including the straddle case where the pre-boundary text ends with a
proper prefix of the marker that the continuation completes, where the
two decodes genuinely differ) and boundaries interior to a text
segment (which can change what the whitespace filter drops), as the
counterexamples show. -/
theorem c1_amended_aligned_chunking {M : Type u} (p : List Char → Option M)
    (chunks : List (List Char)) (h : alignedRun [] chunks = true) :
    runDecoder p [] chunks = runDecoder p [] [chunks.flatten] := by
  have h1 := runDecoder_flatten p chunks [] h (Or.inl rfl)
  have h2 : runDecoder p [] [chunks.flatten] = processBuf p ([] ++ chunks.flatten) := by
    rw [runDecoder_cons]
    simp [runDecoder]
  rw [h1, h2]

/-- C1 (witness): two aligned chunkings evaluated concretely — a chunk
boundary exactly at a Text→Meta frame boundary
(`['Hello ', '__META__{}\nX']`), and a mid-payload split (the meta
frame cut between `'x1'` and `'y2'`).  Incremental decoding equals
whole-buffer decoding on both. -/
theorem c1_amended_witness :
    alignedRun [] ["Hello ".toList, "__META__{}\nX".toList] = true ∧
    runDecoder pRaw [] ["Hello ".toList, "__META__{}\nX".toList] =
      runDecoder pRaw [] [(["Hello ".toList, "__META__{}\nX".toList]).flatten] ∧
    alignedRun [] ["Hello __META__x1".toList, "y2\nWorld.".toList] = true ∧
    runDecoder pRaw [] ["Hello __META__x1".toList, "y2\nWorld.".toList] =
      runDecoder pRaw [] [(["Hello __META__x1".toList, "y2\nWorld.".toList]).flatten] :=
  ⟨by decide, c1_amended_aligned_chunking pRaw _ (by decide),
    by decide, c1_amended_aligned_chunking pRaw _ (by decide)⟩

/-- C2 (counterexample): a chunk ending in the middle of the
`'__META__'` marker is *not* held back: the decoder emits `'__ME'` as a
Text frame at once, and the marker is split across two emitted Text
frames (the meta frame is destroyed, its payload never delivered). -/
theorem c2_counterexample :
    runDecoder pRaw [] ["__ME".toList, "TA__{}\nX".toList] =
      ([Frame.text "__ME".toList, Frame.text "TA__{}\nX".toList], [], []) := by
  decide

/-- C2 (claim theorem, amended): the decoder never delivers a partial
meta *payload*: a buffer that starts with the full marker but whose
`'\n'` terminator has not arrived yet is held back in its entirety —
nothing is emitted and the whole buffer is kept as residual.  The
marker itself enjoys no such protection (see the counterexample). -/
theorem c2_amended_no_partial_payload {M : Type u} (p : List Char → Option M)
    {buf : List Char} (h1 : List.take 8 buf = mkMarker)
    (h2 : findNl buf = none) : processBuf p buf = ([], [], buf) :=
  processBuf_hold p h1 h2

/-- C2 (witness): an unterminated meta frame is held back whole. -/
theorem c2_amended_witness :
    List.take 8 "__META__x1".toList = mkMarker ∧
    findNl "__META__x1".toList = none ∧
    processBuf pRaw "__META__x1".toList = ([], [], "__META__x1".toList) :=
  ⟨by decide, by decide,
    c2_amended_no_partial_payload pRaw (by decide) (by decide)⟩

/-- C3 (counterexample): in the second iteration the sentence release
is addressed by *index*, not by message identity.  Exchange A starts in
a conversation with one message (captured `assistantIndex = 2`); the
user switches to a conversation whose history has three messages; a
late chunk of exchange A then arrives, and its sentence `'stale.'` is
appended to the *new* conversation's third message — a stale stream
frame mutates the displayed transcript, refuting the claim. -/
theorem c3_counterexample :
    (v2OnChunk
        (v2Send "hi".toList ⟨[⟨Role.user, "old".toList⟩], [], [], false⟩).2
        "stale.".toList
        (v2Switch
          [⟨Role.user, "y0".toList⟩, ⟨Role.assistant, "y1".toList⟩,
            ⟨Role.user, "y2".toList⟩]
          (v2Send "hi".toList ⟨[⟨Role.user, "old".toList⟩], [], [], false⟩).1)).messages =
      [⟨Role.user, "y0".toList⟩, ⟨Role.assistant, "y1".toList⟩,
        ⟨Role.user, "y2stale.".toList⟩] := by
  decide

/-- C3 (claim theorem, amended): the first iteration's mutation is
keyed on the captured `streamingId`; whenever the stale exchange's
placeholder is no longer present in the transcript (as after a
conversation switch clears and reloads it), a late chunk mutates
nothing.  The index-addressed `processQueue` path of the second
iteration does not have this guarantee (see the counterexample). -/
theorem c3_amended_id_guard (streamingId : Nat) (chunk : List Char)
    (msgs : List MsgV1) (h : streamingId ∉ msgs.map MsgV1.id) :
    applyChunkV1 streamingId chunk msgs = msgs :=
  applyChunkV1_not_mem h

/-- C3 (witness): a late chunk keyed to an absent id leaves a loaded
history untouched. -/
theorem c3_amended_witness :
    (5 ∉ ([⟨1, Role.user, "a".toList⟩] : List MsgV1).map MsgV1.id) ∧
    applyChunkV1 5 "x".toList [⟨1, Role.user, "a".toList⟩] =
      [⟨1, Role.user, "a".toList⟩] :=
  ⟨by decide, c3_amended_id_guard 5 "x".toList _ (by decide)⟩

/-- C4 (claim theorem): starting from an unbound conversation
(`conversationIdRef.current = null`), after any prefix `pre` of the
stream the bound id is exactly the first conversation id carried by a
meta frame of `pre`, and the external collaborator has been notified
exactly on that first id (`(metaCids pre).take 1`).  Taking `pre` up to
the first id-carrying meta frame shows the binding and the single
notification happen before any later frame is applied; taking longer
prefixes shows later meta frames never rebind or re-notify.
Conversation ids are nonzero (JavaScript truthiness would treat the id
`0` like `null`). -/
theorem c4_first_meta_binds_once (fs pre post : List (Frame MetaMsg))
    (hsplit : fs = pre ++ post) (h : ∀ c ∈ metaCids fs, c ≠ 0) :
    runConv ⟨none, []⟩ pre =
      { conv := (metaCids pre).head?, notes := (metaCids pre).take 1 } := by
  have hpre : ∀ c ∈ metaCids pre, c ≠ 0 := by
    intro c hc
    apply h
    rw [hsplit]
    have hsplitc : metaCids (pre ++ post) = metaCids pre ++ metaCids post := by
      simp [metaCids, List.filterMap_append]
    rw [hsplitc]
    exact List.mem_append_left _ hc
  have hx := runConv_from_none pre ⟨none, []⟩ rfl hpre
  simpa using hx

/-- C4 (witness): the spec scenario — a first meta frame carrying
conversation id `7`, then text `'Hi'` — binds `7` after the meta frame
(before the text is applied) and notifies exactly once. -/
theorem c4_witness :
    ([Frame.meta ⟨some 7⟩, Frame.text "Hi".toList] : List (Frame MetaMsg)) =
      [Frame.meta ⟨some 7⟩] ++ [Frame.text "Hi".toList] ∧
    (∀ c ∈ metaCids [Frame.meta ⟨some 7⟩, Frame.text "Hi".toList], c ≠ 0) ∧
    runConv ⟨none, []⟩ [Frame.meta ⟨some 7⟩] = ⟨some 7, [7]⟩ ∧
    runConv ⟨none, []⟩ [Frame.meta ⟨some 7⟩, Frame.text "Hi".toList] = ⟨some 7, [7]⟩ := by
  refine ⟨rfl, by decide, ?_, ?_⟩
  · exact (c4_first_meta_binds_once
      [Frame.meta ⟨some 7⟩, Frame.text "Hi".toList]
      [Frame.meta ⟨some 7⟩] [Frame.text "Hi".toList] rfl (by decide)).trans (by decide)
  · exact (c4_first_meta_binds_once
      [Frame.meta ⟨some 7⟩, Frame.text "Hi".toList]
      [Frame.meta ⟨some 7⟩, Frame.text "Hi".toList] [] (by simp) (by decide)).trans
      (by decide)

/-- C5 (counterexample): pushing the single chunk `'.a.'` refutes
conservation: the regex matches `'a.'` at index 1, but the front-slice
removes the leading `'.'` together with `'a'`, so the buffer keeps the
final `'.'` that was *also* released.  The exchange delivers `'a..'`
— the leading dot is dropped and the trailing dot duplicated — instead
of `'.a.'`. -/
theorem c5_counterexample :
    pacerText [".a.".toList] = "a..".toList ∧
    pacerText [".a.".toList] ≠ ([".a.".toList] : List (List Char)).flatten := by
  decide

/-- C5 (claim theorem, amended): whenever every sentence extraction of
the run matches at position 0 of the pending buffer (`pacerAnchored`,
which holds in particular whenever the buffer never starts with a
sentence terminator — e.g. for ordinary prose such as the spec's
scenario), the concatenation of the paced releases plus the final
unpaced flush equals the concatenation of the pushed chunks exactly:
nothing is dropped, duplicated, or reordered. -/
theorem c5_amended_anchored_conservation (chunks : List (List Char))
    (h : pacerAnchored [] chunks = true) :
    pacerText chunks = chunks.flatten := by
  have hx := runPacer_conserves chunks [] h
  unfold pacerText
  simpa using hx

/-- C5 (witness): the spec scenario `['He', 'llo there. How a',
're you?']` is an anchored run, is released as exactly the two
sentence units `'Hello there.'` and `' How are you?'`, and the final
assistant text is `'Hello there. How are you?'`. -/
theorem c5_witness :
    pacerAnchored [] ["He".toList, "llo there. How a".toList, "re you?".toList] = true ∧
    runPacer [] ["He".toList, "llo there. How a".toList, "re you?".toList] =
      (["Hello there.".toList, " How are you?".toList], []) ∧
    pacerText ["He".toList, "llo there. How a".toList, "re you?".toList] =
      "Hello there. How are you?".toList := by
  refine ⟨by decide, by decide, ?_⟩
  exact (c5_amended_anchored_conservation _ (by decide)).trans (by decide)

/-- C6 (counterexample): the stream consisting of the single chunk
`'__META__x1'` (a meta frame whose terminator never arrives) ends with
the unterminated frame still in the residual buffer and *no* frame
delivered at all: `chatStream` breaks out of its read loop on `done`
without flushing, so the residual is discarded, not delivered as a
final Text frame. -/
theorem c6_counterexample :
    (runDecoder pRaw [] ["__META__x1".toList]).1 = [] ∧
    (runDecoder pRaw [] ["__META__x1".toList]).2.2 = "__META__x1".toList := by
  decide

/-- C6 (claim theorem, amended): when the reader reports `done`, the
decoder simply abandons its residual buffer (`runDecoder` returns it
undelivered; no flush exists).  The only data that can be lost this way
is an unterminated meta frame: the residual at stream end is always
either empty or a buffer that starts with the full `'__META__'` marker
and contains no `'\n'` yet — a trailing text segment is always emitted
eagerly while its chunk is processed and never remains in the
residual. -/
theorem c6_amended_residual_discarded {M : Type u} (p : List Char → Option M)
    (chunks : List (List Char)) :
    (runDecoder p [] chunks).2.2 = [] ∨
    (List.take 8 (runDecoder p [] chunks).2.2 = mkMarker ∧
      findNl (runDecoder p [] chunks).2.2 = none) :=
  runDecoder_residual p chunks [] (Or.inl rfl)

/-- C7 (witness): the malformed payload `'bad'` inside a terminated
meta frame is dropped and logged, and the rest of the stream decodes
unaffected. -/
theorem c7_witness :
    findNl "bad".toList = none ∧
    pNone "bad".toList = none ∧
    processBuf pNone (mkMarker ++ "bad".toList ++ '\n' :: "ok".toList) =
      ((processBuf pNone "ok".toList).1,
       "bad".toList :: (processBuf pNone "ok".toList).2.1,
       (processBuf pNone "ok".toList).2.2) :=
  ⟨by decide, rfl, c7_malformed_meta_dropped pNone "bad".toList "ok".toList (by decide) rfl⟩

/-- C8 (counterexample): a transport failure before any byte
(`!response.ok || !response.body` makes `chatStream` throw) leaves the
transcript containing exactly the user echo and the *empty* assistant
placeholder: `handleSend` has a `finally` but no `catch`, so no inline
error message of any kind is appended, refuting that part of the
claim.  The exchange is aborted (`loading` cleared, `streamingIdRef`
nulled), the error propagates (`true`), and the transport was invoked
exactly once (no retry). -/
theorem c8_counterexample :
    v1HandleSend 1 2 Transport.fail
        ⟨[], "hi".toList, false, false, ⟨none, []⟩, none⟩ =
      (⟨[⟨1, Role.user, "hi".toList⟩, ⟨2, Role.assistant, []⟩],
        [], false, true, ⟨none, []⟩, none⟩, true, 1) := by
  decide

/-- C8 (claim theorem, amended): a pre-byte transport failure fails the
exchange immediately and surfaces as a thrown error; the exchange is
aborted (`loading := false`, `streamingIdRef := none`) and the
transport is called exactly once (no automatic retry) — but no inline
error message is appended: the transcript is exactly the prior
messages plus the user echo and the empty assistant placeholder. -/
theorem c8_amended_fail_aborts (uid sid : Nat) (s : V1State)
    (hin : s.input.any (fun c => !isWs c) = true) (hld : s.loading = false) :
    v1HandleSend uid sid Transport.fail s =
      ({ messages := s.messages ++
           [⟨uid, Role.user, jsTrim s.input⟩, ⟨sid, Role.assistant, []⟩],
         input := [], loading := false, hideWelcome := true,
         conv := s.conv, streamingId := none }, true, 1) := by
  simp [v1HandleSend, hin, hld]

/-- C8 (witness): the amended failure behaviour at a concrete state. -/
theorem c8_amended_witness :
    ("hi".toList.any (fun c => !isWs c) = true) ∧
    v1HandleSend 3 4 Transport.fail
        ⟨[⟨9, Role.user, "old".toList⟩], "hi".toList, false, false, ⟨some 2, []⟩, none⟩ =
      (⟨[⟨9, Role.user, "old".toList⟩, ⟨3, Role.user, "hi".toList⟩,
          ⟨4, Role.assistant, []⟩],
        [], false, true, ⟨some 2, []⟩, none⟩, true, 1) := by
  refine ⟨by decide, ?_⟩
  exact (c8_amended_fail_aborts 3 4 _ (by decide) rfl).trans (by decide)

/-- C9 (claim theorem): every Text frame the decoder ever delivers over
any stream contains at least one non-whitespace character; whitespace-
only segments are silently dropped by the `text.trim()` guard and never
reach `onChunk` (hence never the transcript). -/
theorem c9_text_frames_non_whitespace {M : Type u} (p : List Char → Option M)
    (chunks : List (List Char)) (f : Frame M)
    (hf : f ∈ (runDecoder p [] chunks).1) (t : List Char)
    (ht : f = Frame.text t) : t.any (fun c => !isWs c) = true :=
  runDecoder_text_nonWs p chunks [] f hf t ht

/-- C9 (witness): a delivered Text frame evaluated concretely. -/
theorem c9_witness :
    (Frame.text "hi".toList ∈ (runDecoder pRaw [] ["hi".toList]).1) ∧
    "hi".toList.any (fun c => !isWs c) = true :=
  ⟨by decide,
    c9_text_frames_non_whitespace pRaw ["hi".toList] (Frame.text "hi".toList)
      (by decide) "hi".toList rfl⟩

/-- C10 (claim theorem): while an exchange is in flight
(`loading = true`), invoking `handleSend` again is a complete no-op:
the state is returned unchanged, no exchange starts (the throw flag is
`false`) and the transport is never invoked (call count `0`), for any
message ids and any transport behaviour. -/
theorem c10_send_noop_while_loading (uid sid : Nat) (t : Transport)
    (s : V1State) (h : s.loading = true) :
    v1HandleSend uid sid t s = (s, false, 0) := by
  simp [v1HandleSend, h]

/-- C10 (witness): a concrete loading state is untouched by a second
send. -/
theorem c10_witness :
    (⟨[], "x".toList, true, false, ⟨none, []⟩, none⟩ : V1State).loading = true ∧
    v1HandleSend 0 1 Transport.fail
        ⟨[], "x".toList, true, false, ⟨none, []⟩, none⟩ =
      (⟨[], "x".toList, true, false, ⟨none, []⟩, none⟩, false, 0) :=
  ⟨rfl, c10_send_noop_while_loading 0 1 Transport.fail _ rfl⟩
